import Mathlib

/-!
Verification of the sampling, weight and harmonic-index routines of
`src/c/ssht_sampling.c` (the ssht library), shallowly embedded in Lean 4.

C `double` arithmetic is modelled by exact real arithmetic, C `int` by `ℤ`
(or `ℕ` for loop counters), `complex double` by `ℂ`.  Output arrays are
modelled as functions `ℕ → ℝ` constrained by the writes the code performs.
-/

/-- Modelled from the spec: the constant `SSHT_PI` comes from the header
`ssht_types.h`, which is not among the sources; the spec's formulas all use
pi for it. -/
noncomputable def SSHT_PI : ℝ := Real.pi

/-- Modelled from the spec: the constant `SSHT_PION2` (pi over two) comes from
the header `ssht_types.h`, which is not among the sources; the spec writes
`i·(pi/2)` for the weight built from it. -/
noncomputable def SSHT_PION2 : ℝ := Real.pi / 2

/-- `ssht_sampling_elm2ind` (ssht_sampling.c, line 214): `*ind = el*el + el + m`. -/
def ssht_sampling_elm2ind (el m : ℤ) : ℤ := el * el + el + m

/-- `ssht_sampling_ind2elm` (ssht_sampling.c, line 237):
`*el = sqrt(ind); *m = ind - el*el - el`.
The C code truncates `sqrt((double) ind)` to `int`.  For every `int` input
`0 ≤ ind < 2^31` the conversion to `double` is exact, and the correctly
rounded IEEE-754 square root differs from the true root by far less than the
root's distance to the next integer (that distance is at least about `1e-5`
while the rounding error is below `4e-12`), so the truncation yields exactly
the integer floor square root, modelled here by `Nat.sqrt`. -/
def ssht_sampling_ind2elm (ind : ℤ) : ℤ × ℤ :=
  ((Nat.sqrt ind.toNat : ℤ),
    ind - (Nat.sqrt ind.toNat : ℤ) * (Nat.sqrt ind.toNat : ℤ) - (Nat.sqrt ind.toNat : ℤ))

/-- `ssht_sampling_weight_mw` (ssht_sampling.c, lines 33-48). -/
noncomputable def ssht_sampling_weight_mw (p : ℤ) : ℂ :=
  if p = 1 then Complex.I * (SSHT_PION2 : ℂ)
  else if p = -1 then -Complex.I * (SSHT_PION2 : ℂ)
  else if p % 2 = 0 then (2 : ℂ) / (1 - ((p * p : ℤ) : ℂ))
  else 0

/-- The MW weight exactly as the spec states it (section 4.2), written from
the spec's words for comparison with the implementation. -/
noncomputable def weight_mw_given_by_spec (p : ℤ) : ℂ :=
  if p = 1 then Complex.I * ((Real.pi / 2 : ℝ) : ℂ)
  else if p = -1 then -(Complex.I * ((Real.pi / 2 : ℝ) : ℂ))
  else if Even p then (2 : ℂ) / (1 - (p : ℂ) ^ 2)
  else 0

/-- The accumulation loop of `ssht_sampling_weight_dh` (ssht_sampling.c,
lines 66-68): `w = 0; for (k=0; k<=L-1; k++) w += sin((2k+1)*theta)/(2k+1);`,
indexed by the number of executed iterations. -/
noncomputable def dhLoop (theta : ℝ) : ℕ → ℝ
  | 0 => 0
  | k + 1 => dhLoop theta k + Real.sin ((2 * (k : ℝ) + 1) * theta) / (2 * (k : ℝ) + 1)

/-- `ssht_sampling_weight_dh` (ssht_sampling.c, lines 61-74): the loop runs
`max L 0` times, then `w *= 2.0/L * sin(theta)`. -/
noncomputable def ssht_sampling_weight_dh (theta : ℝ) (L : ℤ) : ℝ :=
  dhLoop theta L.toNat * (2 / (L : ℝ) * Real.sin theta)

/-- `ssht_sampling_mw_t2theta` (ssht_sampling.c, line 167):
`(2.0*t + 1.0) * SSHT_PI / (2.0*L - 1.0)`. -/
noncomputable def ssht_sampling_mw_t2theta (t L : ℤ) : ℝ :=
  (2 * (t : ℝ) + 1) * SSHT_PI / (2 * (L : ℝ) - 1)

/-- `ssht_sampling_mw_p2phi` (ssht_sampling.c, line 186):
`2.0 * p * SSHT_PI / (2.0*L - 1.0)`. -/
noncomputable def ssht_sampling_mw_p2phi (p L : ℤ) : ℝ :=
  2 * (p : ℝ) * SSHT_PI / (2 * (L : ℝ) - 1)

/-- The convergence tolerance `EPS = 1e-14` of `gauleg`. -/
noncomputable def EPS : ℝ := 1e-14

/-- The literal `3.141592654` used for the initial root guess in `gauleg`
(ssht_sampling.c, line 128); note it is not the header constant. -/
noncomputable def gaulegPi : ℝ := 3.141592654

/-- The inner recurrence loop of `gauleg` (ssht_sampling.c, lines 130-136):
starting from `p1 = 1, p2 = 0`, for `j = 1..n` it sets
`p3 = p2; p2 = p1; p1 = ((2j-1)*z*p2 - (j-1)*p3)/j`.  `legLoop z n` is the
pair `(p1, p2)` after the iteration for the C index `j = n`; the Lean
recursion index `j` corresponds to the C index `j + 1`. -/
noncomputable def legLoop (z : ℝ) : ℕ → ℝ × ℝ
  | 0 => (1, 0)
  | j + 1 =>
    (((2 * (j : ℝ) + 1) * z * (legLoop z j).1 - (j : ℝ) * (legLoop z j).2) / ((j : ℝ) + 1),
      (legLoop z j).1)

/-- The derivative value `pp = n*(z*p1 - p2)/(z*z - 1.0)` of `gauleg`
(ssht_sampling.c, line 137), evaluated at `z`. -/
noncomputable def legPP (n : ℕ) (z : ℝ) : ℝ :=
  (n : ℝ) * (z * (legLoop z n).1 - (legLoop z n).2) / (z * z - 1)

/-- One Newton update of `gauleg` (ssht_sampling.c, lines 138-139):
`z1 = z; z = z1 - p1/pp`. -/
noncomputable def newtonStep (n : ℕ) (z : ℝ) : ℝ :=
  z - (legLoop z n).1 / legPP n z

/-- Exact semantics of the `do { ... } while (ABS(z-z1) > EPS)` loop of
`gauleg` (ssht_sampling.c, lines 129-140).  `NewtonLoop n z zl` relates the
value of `z` on entry to the loop to the value `zl` held by `z1` when the
loop exits; on exit the variable `z` holds `newtonStep n zl` and `pp` holds
`legPP n zl`.  The body always executes at least once, and the loop
continues whenever the last update moved `z` by more than `EPS`. -/
inductive NewtonLoop (n : ℕ) : ℝ → ℝ → Prop
  | done (z : ℝ) : |newtonStep n z - z| ≤ EPS → NewtonLoop n z z
  | step (z r : ℝ) : EPS < |newtonStep n z - z| →
      NewtonLoop n (newtonStep n z) r → NewtonLoop n z r

/-- `gauleg` (ssht_sampling.c, lines 117-147) as a relation between its
scalar inputs and the final contents of the caller's arrays `x` and `w`:
for each `i = 1..m` with `m = (n+1)/2`, the loop starts Newton iteration at
`z = cos(3.141592654*(i-.25)/(n+.5))` and, with `z`/`pp` the final values,
writes, in order, `x[i-1] = xm - xl*z`, `x[n+1-i-1] = xm + xl*z`,
`w[i-1] = 2*xl/((1-z*z)*pp*pp)` and `w[n+1-i-1] = w[i-1]`,
where `xm = 0.5*(x2+x1)` and `xl = 0.5*(x2-x1)`.
At the middle index of odd `n` the two abscissa slots coincide
(`i-1 = n+1-i-1`) and the second write overwrites the first, so the slot's
final content is `xm + xl*z`; the constraint on the first write is
therefore guarded by `i - 1 ≠ n - i`.  The two weight writes always agree
(the second copies the first), so they stay as an unguarded conjunction. -/
def gauleg (x1 x2 : ℝ) (n : ℕ) (x w : ℕ → ℝ) : Prop :=
  ∀ i : ℕ, 1 ≤ i → i ≤ (n + 1) / 2 →
    ∃ zl : ℝ,
      NewtonLoop n (Real.cos (gaulegPi * ((i : ℝ) - 0.25) / ((n : ℝ) + 0.5))) zl ∧
      (i - 1 ≠ n - i → x (i - 1) = 0.5 * (x2 + x1) - 0.5 * (x2 - x1) * newtonStep n zl) ∧
      x (n - i) = 0.5 * (x2 + x1) + 0.5 * (x2 - x1) * newtonStep n zl ∧
      w (i - 1) = 2 * (0.5 * (x2 - x1)) /
        ((1 - newtonStep n zl * newtonStep n zl) * (legPP n zl * legPP n zl)) ∧
      w (n - i) = w (i - 1)

/-- `ssht_sampling_gl_thetas_weights` (ssht_sampling.c, lines 90-99) as a
relation: `gauleg(-1.0, 1.0, thetas, weights, L)` followed by
`thetas[t] = acos(thetas[t])` for `t = 0..L-1`; weights pass through. -/
def ssht_sampling_gl_thetas_weights (thetas weights : ℕ → ℝ) (L : ℕ) : Prop :=
  ∃ xs : ℕ → ℝ, gauleg (-1) 1 L xs weights ∧
    ∀ t : ℕ, t < L → thetas t = Real.arccos (xs t)

/-- Concrete array contents used to witness `gauleg` at `n = 1` on `[0, 1]`. -/
noncomputable def glXmid : ℕ → ℝ := fun _ => ((0 : ℝ) + 1) / 2

/-- Concrete weight contents used to witness `gauleg` at `n = 1` on `[0, 1]`. -/
noncomputable def glWmid : ℕ → ℝ := fun _ => (1 : ℝ) - 0

lemma sqrt_toNat_of_elm (el m : ℤ) (h0 : 0 ≤ el) (hm1 : -el ≤ m) (hm2 : m ≤ el) :
    ((Nat.sqrt (el * el + el + m).toNat : ℕ) : ℤ) = el := by
  have hnn : 0 ≤ el * el + el + m := by nlinarith
  have hN : ((el * el + el + m).toNat : ℤ) = el * el + el + m := Int.toNat_of_nonneg hnn
  have ha : (el.toNat : ℤ) = el := Int.toNat_of_nonneg h0
  have hlow : el.toNat * el.toNat ≤ (el * el + el + m).toNat := by
    have h : ((el.toNat : ℤ)) * (el.toNat : ℤ) ≤ (((el * el + el + m).toNat : ℕ) : ℤ) := by
      rw [ha, hN]; nlinarith
    exact_mod_cast h
  have hup : (el * el + el + m).toNat < (el.toNat + 1) * (el.toNat + 1) := by
    have h : (((el * el + el + m).toNat : ℕ) : ℤ) < ((el.toNat : ℤ) + 1) * ((el.toNat : ℤ) + 1) := by
      rw [ha, hN]; nlinarith
    exact_mod_cast h
  have h1 : el.toNat ≤ Nat.sqrt (el * el + el + m).toNat := Nat.le_sqrt.mpr hlow
  have h2 : Nat.sqrt (el * el + el + m).toNat < el.toNat + 1 := Nat.sqrt_lt.mpr hup
  have h3 : Nat.sqrt (el * el + el + m).toNat = el.toNat := by omega
  rw [h3, ha]

/-- C1: `ssht_sampling_elm2ind` and `ssht_sampling_ind2elm` are mutually
inverse: for `el ≥ 0` and `-el ≤ m ≤ el`, `ind2elm (elm2ind el m) = (el, m)`,
and for every integer `ind ≥ 0`, `elm2ind` applied to the pair returned by
`ind2elm ind` gives back `ind`. -/
theorem harmonic_index_roundtrip (el m ind : ℤ) :
    (0 ≤ el → -el ≤ m → m ≤ el →
      ssht_sampling_ind2elm (ssht_sampling_elm2ind el m) = (el, m)) ∧
    (0 ≤ ind →
      ssht_sampling_elm2ind (ssht_sampling_ind2elm ind).1 (ssht_sampling_ind2elm ind).2 = ind) := by
  constructor
  · intro h0 hm1 hm2
    have hs := sqrt_toNat_of_elm el m h0 hm1 hm2
    simp only [ssht_sampling_ind2elm, ssht_sampling_elm2ind, hs, Prod.mk.injEq]
    exact ⟨trivial, by ring⟩
  · intro _
    simp only [ssht_sampling_ind2elm, ssht_sampling_elm2ind]
    ring

theorem harmonic_index_roundtrip_witness :
    ssht_sampling_ind2elm (ssht_sampling_elm2ind 2 1) = (2, 1) ∧
    ssht_sampling_elm2ind (ssht_sampling_ind2elm 7).1 (ssht_sampling_ind2elm 7).2 = 7 :=
  ⟨(harmonic_index_roundtrip 2 1 0).1 (by norm_num) (by norm_num) (by norm_num),
    (harmonic_index_roundtrip 0 0 7).2 (by norm_num)⟩

/-- C2: `ssht_sampling_weight_mw` returns exactly the piecewise values the
spec states (i·pi/2 at p = 1, -i·pi/2 at p = -1, 2/(1-p²) at even p, 0 at
odd p ≠ ±1), and in particular `weight_mw 0 = 2`, `weight_mw 2 = -2/3`,
`weight_mw 3 = 0`. -/
theorem weight_mw_correct (p : ℤ) :
    ssht_sampling_weight_mw p = weight_mw_given_by_spec p ∧
    ssht_sampling_weight_mw 0 = 2 ∧
    ssht_sampling_weight_mw 2 = -(2 / 3) ∧
    ssht_sampling_weight_mw 3 = 0 := by
  refine ⟨?_, ?_, ?_, ?_⟩
  · by_cases h1 : p = 1
    · simp [ssht_sampling_weight_mw, weight_mw_given_by_spec, h1, SSHT_PION2]
    · by_cases h2 : p = -1
      · simp [ssht_sampling_weight_mw, weight_mw_given_by_spec, h1, h2, SSHT_PION2]
      · by_cases h3 : p % 2 = 0
        · have he : Even p := Int.even_iff.mpr h3
          simp only [ssht_sampling_weight_mw, weight_mw_given_by_spec,
            if_neg h1, if_neg h2, if_pos h3, if_pos he]
          push_cast
          ring_nf
        · have he : ¬Even p := fun h => h3 (Int.even_iff.mp h)
          simp only [ssht_sampling_weight_mw, weight_mw_given_by_spec,
            if_neg h1, if_neg h2, if_neg h3, if_neg he]
  · norm_num [ssht_sampling_weight_mw]
  · norm_num [ssht_sampling_weight_mw]
  · norm_num [ssht_sampling_weight_mw]

/-- C10: the MW weight satisfies `weight_mw (-p) = conj (weight_mw p)` for
every integer `p`: the two imaginary branches are conjugate and the real
branches are invariant under negating `p`. -/
theorem weight_mw_conj (p : ℤ) :
    ssht_sampling_weight_mw (-p) = (starRingEnd ℂ) (ssht_sampling_weight_mw p) := by
  by_cases h1 : p = 1
  · subst h1
    norm_num [ssht_sampling_weight_mw, map_mul, Complex.conj_I, Complex.conj_ofReal]
  · by_cases h2 : p = -1
    · subst h2
      norm_num [ssht_sampling_weight_mw, map_mul, map_neg, Complex.conj_I, Complex.conj_ofReal]
    · by_cases h3 : p % 2 = 0
      · have hn1 : ¬(-p = 1) := by omega
        have hn2 : ¬(-p = -1) := by omega
        have hn3 : (-p) % 2 = 0 := by omega
        simp only [ssht_sampling_weight_mw, if_neg h1, if_neg h2, if_pos h3,
          if_neg hn1, if_neg hn2, if_pos hn3]
        have hpp : (-p) * (-p) = p * p := by ring
        rw [hpp]
        simp [map_div₀, map_sub, map_one, map_ofNat, map_intCast]
      · have hn1 : ¬(-p = 1) := by omega
        have hn2 : ¬(-p = -1) := by omega
        have hn3 : ¬((-p) % 2 = 0) := by omega
        simp only [ssht_sampling_weight_mw, if_neg h1, if_neg h2, if_neg h3,
          if_neg hn1, if_neg hn2, if_neg hn3, map_zero]

lemma dhLoop_eq_sum (theta : ℝ) (n : ℕ) :
    dhLoop theta n =
      ∑ k ∈ Finset.range n, Real.sin ((2 * (k : ℝ) + 1) * theta) / (2 * (k : ℝ) + 1) := by
  induction n with
  | zero => simp [dhLoop]
  | succ k ih => simp [dhLoop, Finset.sum_range_succ, ih]

/-- C3: `ssht_sampling_weight_dh theta L` equals
`(2/L)·sin(theta) · Σ_{k=0}^{L-1} sin((2k+1)·theta)/(2k+1)` for every
band-limit `L ≥ 1`, and at `theta = pi/2`, `L = 1` it returns `2`. -/
theorem weight_dh_correct (theta : ℝ) (L : ℤ) (hL : 1 ≤ L) :
    ssht_sampling_weight_dh theta L =
      2 / (L : ℝ) * Real.sin theta *
        ∑ k ∈ Finset.range L.toNat, Real.sin ((2 * (k : ℝ) + 1) * theta) / (2 * (k : ℝ) + 1) ∧
    ssht_sampling_weight_dh (Real.pi / 2) 1 = 2 := by
  constructor
  · unfold ssht_sampling_weight_dh
    rw [dhLoop_eq_sum]
    ring
  · unfold ssht_sampling_weight_dh
    norm_num [dhLoop, Real.sin_pi_div_two]

theorem weight_dh_correct_witness :
    ssht_sampling_weight_dh (Real.pi / 2) 1 =
      2 / ((1 : ℤ) : ℝ) * Real.sin (Real.pi / 2) *
        ∑ k ∈ Finset.range (1 : ℤ).toNat,
          Real.sin ((2 * (k : ℝ) + 1) * (Real.pi / 2)) / (2 * (k : ℝ) + 1) ∧
    ssht_sampling_weight_dh (Real.pi / 2) 1 = 2 :=
  weight_dh_correct (Real.pi / 2) 1 (by norm_num)

/-- C7: `ssht_sampling_mw_t2theta t L = (2t+1)·pi/(2L-1)` for `L ≥ 1` and
`0 ≤ t ≤ 2L-2`; the values at `t = 0` and `t = 2L-2` lie strictly inside
`(0, 2·pi)`, and successive `t` values are spaced by exactly `2·pi/(2L-1)`. -/
theorem mw_t2theta_correct (t L : ℤ) (hL : 1 ≤ L) (ht0 : 0 ≤ t) (ht : t ≤ 2 * L - 2) :
    ssht_sampling_mw_t2theta t L = (2 * (t : ℝ) + 1) * Real.pi / (2 * (L : ℝ) - 1) ∧
    0 < ssht_sampling_mw_t2theta 0 L ∧
    ssht_sampling_mw_t2theta 0 L < 2 * Real.pi ∧
    0 < ssht_sampling_mw_t2theta (2 * L - 2) L ∧
    ssht_sampling_mw_t2theta (2 * L - 2) L < 2 * Real.pi ∧
    ssht_sampling_mw_t2theta (t + 1) L - ssht_sampling_mw_t2theta t L =
      2 * Real.pi / (2 * (L : ℝ) - 1) := by
  have hL' : (1 : ℝ) ≤ (L : ℝ) := by exact_mod_cast hL
  have hd : (0 : ℝ) < 2 * (L : ℝ) - 1 := by linarith
  have hd' : 2 * (L : ℝ) - 1 ≠ 0 := ne_of_gt hd
  have hpi := Real.pi_pos
  refine ⟨rfl, ?_, ?_, ?_, ?_, ?_⟩
  · unfold ssht_sampling_mw_t2theta SSHT_PI
    push_cast
    norm_num
    exact div_pos hpi hd
  · unfold ssht_sampling_mw_t2theta SSHT_PI
    push_cast
    norm_num
    rw [div_lt_iff hd]
    nlinarith
  · unfold ssht_sampling_mw_t2theta SSHT_PI
    push_cast
    apply div_pos ?_ hd
    nlinarith
  · unfold ssht_sampling_mw_t2theta SSHT_PI
    push_cast
    rw [div_lt_iff hd]
    nlinarith
  · unfold ssht_sampling_mw_t2theta SSHT_PI
    push_cast
    field_simp
    ring

theorem mw_t2theta_correct_witness :
    0 < ssht_sampling_mw_t2theta 0 1 ∧ ssht_sampling_mw_t2theta 0 1 < 2 * Real.pi := by
  have h := mw_t2theta_correct 0 1 (by norm_num) (by norm_num) (by norm_num)
  exact ⟨h.2.1, h.2.2.1⟩

/-- C8 counterexample: the code performs no band-limit validation; with the
invalid band-limit `L = 0`, `ssht_sampling_mw_t2theta` returns the value
`-pi` computed from the formula instead of reporting an error. -/
theorem mw_t2theta_no_validation_cex : ssht_sampling_mw_t2theta 0 0 = -Real.pi := by
  unfold ssht_sampling_mw_t2theta SSHT_PI
  push_cast
  ring

/-- C8 (amended): no precondition checking exists; a function given `L ≤ 0`
still returns a value computed from the invalid input: `t2theta 0 L` returns
`pi/(2L-1)`, which is negative (outside the valid colatitude range), and
`weight_dh theta L` for `L < 0` returns `0`. -/
theorem no_bandlimit_validation (L : ℤ) (hL : L ≤ 0) :
    ssht_sampling_mw_t2theta 0 L = Real.pi / (2 * (L : ℝ) - 1) ∧
    ssht_sampling_mw_t2theta 0 L < 0 ∧
    (L < 0 → ssht_sampling_weight_dh 1 L = 0) := by
  have hL' : (L : ℝ) ≤ 0 := by exact_mod_cast hL
  have hd : 2 * (L : ℝ) - 1 < 0 := by linarith
  have h1 : ssht_sampling_mw_t2theta 0 L = Real.pi / (2 * (L : ℝ) - 1) := by
    unfold ssht_sampling_mw_t2theta SSHT_PI
    norm_num
  refine ⟨h1, ?_, ?_⟩
  · rw [h1]
    exact div_neg_of_pos_of_neg Real.pi_pos hd
  · intro hneg
    have h0 : L.toNat = 0 := Int.toNat_of_nonpos (le_of_lt hneg)
    unfold ssht_sampling_weight_dh
    rw [h0]
    simp [dhLoop]

theorem no_bandlimit_validation_witness :
    ssht_sampling_mw_t2theta 0 (-1) = Real.pi / (2 * ((-1 : ℤ) : ℝ) - 1) ∧
    ssht_sampling_mw_t2theta 0 (-1) < 0 ∧
    ((-1 : ℤ) < 0 → ssht_sampling_weight_dh 1 (-1) = 0) :=
  no_bandlimit_validation (-1) (by norm_num)

lemma legLoop_one (z : ℝ) : legLoop z 1 = (z, 1) := by
  simp [legLoop]

lemma legPP_one (z : ℝ) (h : z * z ≠ 1) : legPP 1 z = 1 := by
  have h' : z * z - 1 ≠ 0 := sub_ne_zero.mpr h
  simp only [legPP, legLoop_one, Nat.cast_one, one_mul]
  exact div_self h'

lemma newtonStep_one (z : ℝ) (h : z * z ≠ 1) : newtonStep 1 z = 0 := by
  simp [newtonStep, legLoop_one, legPP_one z h]

lemma newtonLoop_one_exists (z : ℝ) (h : z * z ≠ 1) :
    ∃ zl : ℝ, NewtonLoop 1 z zl ∧ newtonStep 1 zl = 0 ∧ legPP 1 zl = 1 := by
  have h0 : (0 : ℝ) * 0 ≠ 1 := by norm_num
  by_cases hc : |newtonStep 1 z - z| ≤ EPS
  · exact ⟨z, NewtonLoop.done z hc, newtonStep_one z h, legPP_one z h⟩
  · refine ⟨0, ?_, newtonStep_one 0 h0, legPP_one 0 h0⟩
    have hz : newtonStep 1 z = 0 := newtonStep_one z h
    have hrest : NewtonLoop 1 (newtonStep 1 z) 0 := by
      rw [hz]
      refine NewtonLoop.done 0 ?_
      rw [newtonStep_one 0 h0]
      norm_num [EPS]
    exact NewtonLoop.step z 0 (lt_of_not_ge hc) hrest

lemma newtonLoop_one_final (s r : ℝ) (h : NewtonLoop 1 s r) :
    s * s ≠ 1 → newtonStep 1 r = 0 ∧ legPP 1 r = 1 := by
  induction h with
  | done z hz => exact fun hs => ⟨newtonStep_one z hs, legPP_one z hs⟩
  | step z r hgt hrec ih =>
    intro hs
    apply ih
    rw [newtonStep_one z hs]
    norm_num

lemma gauleg_angle_one_mem : (0 : ℝ) < gaulegPi * ((1 : ℝ) - 0.25) / ((1 : ℝ) + 0.5) ∧
    gaulegPi * ((1 : ℝ) - 0.25) / ((1 : ℝ) + 0.5) < Real.pi := by
  have he : gaulegPi * ((1 : ℝ) - 0.25) / ((1 : ℝ) + 0.5) = 1.570796327 := by
    norm_num [gaulegPi]
  rw [he]
  constructor
  · norm_num
  · have h := Real.pi_gt_d6
    norm_num at h ⊢
    linarith

lemma gauleg_z0_sq_ne_one :
    Real.cos (gaulegPi * ((1 : ℝ) - 0.25) / ((1 : ℝ) + 0.5)) *
      Real.cos (gaulegPi * ((1 : ℝ) - 0.25) / ((1 : ℝ) + 0.5)) ≠ 1 := by
  obtain ⟨h0, hpi⟩ := gauleg_angle_one_mem
  set a := gaulegPi * ((1 : ℝ) - 0.25) / ((1 : ℝ) + 0.5) with ha
  have hmem : a ∈ Set.Icc (0 : ℝ) Real.pi := ⟨le_of_lt h0, le_of_lt hpi⟩
  have h1 : Real.cos a < 1 := by
    have h := Real.strictAntiOn_cos (Set.left_mem_Icc.mpr Real.pi_nonneg) hmem h0
    simpa using h
  have h2 : -1 < Real.cos a := by
    have h := Real.strictAntiOn_cos hmem (Set.right_mem_Icc.mpr Real.pi_nonneg) hpi
    simpa using h
  nlinarith

lemma gauleg_one_const (x1 x2 : ℝ) :
    gauleg x1 x2 1 (fun _ => (x1 + x2) / 2) (fun _ => x2 - x1) := by
  intro i h1 h2
  have hi : i = 1 := by omega
  subst hi
  obtain ⟨zl, hloop, hstep, hpp⟩ :=
    newtonLoop_one_exists
      (Real.cos (gaulegPi * (((1 : ℕ) : ℝ) - 0.25) / (((1 : ℕ) : ℝ) + 0.5)))
      (by simpa using gauleg_z0_sq_ne_one)
  refine ⟨zl, hloop, fun h => absurd rfl h, ?_, ?_, rfl⟩
  · rw [hstep]
    show (x1 + x2) / 2 = _
    ring
  · rw [hstep, hpp]
    show x2 - x1 = _
    ring

/-- C5: for `n = 1` and any bounds `x1 < x2`, `gauleg` writes the single node
`(x1+x2)/2` (the interval midpoint) into `x[0]` and the weight `x2 - x1`
into `w[0]`. -/
theorem gauleg_one_point (x1 x2 : ℝ) (x w : ℕ → ℝ) (hlt : x1 < x2)
    (hg : gauleg x1 x2 1 x w) :
    x 0 = (x1 + x2) / 2 ∧ w 0 = x2 - x1 := by
  obtain ⟨zl, hloop, _, hx0, hw0, _⟩ := hg 1 le_rfl (by norm_num)
  have hz : Real.cos (gaulegPi * (((1 : ℕ) : ℝ) - 0.25) / (((1 : ℕ) : ℝ) + 0.5)) *
      Real.cos (gaulegPi * (((1 : ℕ) : ℝ) - 0.25) / (((1 : ℕ) : ℝ) + 0.5)) ≠ 1 := by
    simpa using gauleg_z0_sq_ne_one
  obtain ⟨hfin1, hfin2⟩ := newtonLoop_one_final _ _ hloop hz
  have e0 : (1 : ℕ) - 1 = 0 := rfl
  rw [e0] at hx0 hw0
  constructor
  · rw [hx0, hfin1]
    ring
  · rw [hw0, hfin1, hfin2]
    ring

theorem gauleg_one_point_witness : glXmid 0 = ((0 : ℝ) + 1) / 2 ∧ glWmid 0 = 1 - 0 :=
  gauleg_one_point 0 1 glXmid glWmid (by norm_num) (gauleg_one_const 0 1)

/-- C9: the `do`-`while` Newton loop of `gauleg` continues purely on the
tolerance test `ABS(z-z1) > EPS`: whenever the last update moved `z` by more
than `EPS` the loop iterates again, independent of how many iterations have
already run — the code contains no maximum iteration count and no
`NonConvergence` error channel. -/
theorem newton_loop_continues (n : ℕ) (z r : ℝ) (h : EPS < |newtonStep n z - z|) :
    NewtonLoop n z r ↔ NewtonLoop n (newtonStep n z) r := by
  constructor
  · intro hl
    cases hl with
    | done z hz => exact absurd hz (not_le.mpr h)
    | step z r hgt hrec => exact hrec
  · intro hl
    exact NewtonLoop.step z r h hl

theorem newton_loop_continues_witness :
    NewtonLoop 1 4 0 ↔ NewtonLoop 1 (newtonStep 1 4) 0 :=
  newton_loop_continues 1 4 0 (by
    rw [newtonStep_one 4 (by norm_num)]
    norm_num [EPS])
